import Mathlib

/-!
Shallow embedding of `src/dynamic_pybloom/pybloom.py`.

Modelling conventions:
* Python `int` values are `ℕ` (fields that the code keeps non-negative) or `ℤ`
  (raw constructor arguments that may be negative).
* Python `float` values stored in fields are modelled as exact rationals `ℚ`;
  the transcendental cardinality estimator used by `union`/`intersection` is
  modelled with exact real arithmetic (`Real.log`).
* A `bitarray` is a `List Bool`.
* Raising an exception is modelled with `Except Unit`; a function that can
  raise returns `Except Unit α` and the caller's state is unchanged on
  `.error` (explicit state passing).
* The cryptographic digests of `make_hashfuncs` are uninterpreted: a
  `RawHash` argument gives, for each `(num_slices, num_bits, key)` triple,
  the unpacked unsigned integer at a given (salt index, chunk index)
  position.  The parameter solver of `BloomFilter.__init__` (two `math.log`
  based `ceil` expressions over floats) is likewise passed in as an
  uninterpreted `Solver` argument mapping `(capacity, error_rate)` to
  `(num_slices, bits_per_slice)`, and the derivation of
  `individual_error_rate` in `DynamicBloomFilter._setup` as an `IerFn`.
-/

namespace DynamicPybloom

/-- Keys, already normalised to a byte string as in `_make_hashfuncs`. -/
abbrev Key := ℕ

/-- Here `raw num_slices num_bits key salt chunk` is the unpacked unsigned integer
produced by digest number `salt` at chunk position `chunk` for `key`,
for the hash family built by `make_hashfuncs num_slices num_bits`. -/
abbrev RawHash := ℕ → ℕ → Key → ℕ → ℕ → ℕ

/-- Uninterpreted parameter solver of `BloomFilter.__init__`:
`(capacity, error_rate) ↦ (num_slices, bits_per_slice)`. -/
abbrev Solver := ℕ → ℚ → ℕ × ℕ

/-- Uninterpreted model of `DynamicBloomFilter._setup`'s computation
`1 - exp(log(1 - error_rate) / ceil(max_capacity / base_capacity))`:
`(base_capacity, max_capacity, error_rate) ↦ individual_error_rate`. -/
abbrev IerFn := ℤ → ℤ → ℚ → ℚ

/-! ### make_hashfuncs (pybloom.py lines 68-112) -/

/-- Chunk size in bytes chosen from `num_bits` (`fmt_code`/`chunk_size`). -/
def chunkSize (num_bits : ℕ) : ℕ :=
  if num_bits ≥ 2 ^ 31 then 8
  else if num_bits ≥ 2 ^ 15 then 4
  else 2

/-- Digest size in bytes of the digest algorithm chosen from
`total_hash_bits = 8 * num_slices * chunk_size`
(sha512 = 64, sha384 = 48, sha256 = 32, sha1 = 20, md5 = 16 bytes). -/
def digestSize (num_slices num_bits : ℕ) : ℕ :=
  if 8 * num_slices * chunkSize num_bits > 384 then 64
  else if 8 * num_slices * chunkSize num_bits > 256 then 48
  else if 8 * num_slices * chunkSize num_bits > 160 then 32
  else if 8 * num_slices * chunkSize num_bits > 128 then 20
  else 16

/-- Number of fixed-width values unpacked from one digest
(`len(fmt) = digest_size // chunk_size`). -/
def fmtLen (num_slices num_bits : ℕ) : ℕ :=
  digestSize num_slices num_bits / chunkSize num_bits

/-- Models `num_salts, extra = divmod(num_slices, len(fmt)); if extra: num_salts += 1`. -/
def numSalts (num_slices num_bits : ℕ) : ℕ :=
  num_slices / fmtLen num_slices num_bits +
    (if num_slices % fmtLen num_slices num_bits = 0 then 0 else 1)

/-- The position sequence produced by `_make_hashfuncs key`: for each salt in
order, unpack the digest and yield `uint % num_bits`, stopping after
`num_slices` values have been yielded. -/
def hashPositions (num_slices num_bits : ℕ) (raw : ℕ → ℕ → ℕ) : List ℕ :=
  (((List.range (numSalts num_slices num_bits)).flatMap fun salt =>
    (List.range (fmtLen num_slices num_bits)).map fun chunk =>
      raw salt chunk % num_bits)).take num_slices

/-! ### BloomFilter (pybloom.py lines 115-338) -/

/-- State of a `BloomFilter` after `_setup` plus its bit vector. -/
structure BloomFilter where
  error_rate : ℚ
  num_slices : ℕ
  bits_per_slice : ℕ
  capacity : ℕ
  count : ℕ
  bits : List Bool
deriving DecidableEq, Repr

/-- Models `self.num_bits = num_slices * bits_per_slice`. -/
def BloomFilter.num_bits (f : BloomFilter) : ℕ := f.num_slices * f.bits_per_slice

/-- Model of `BloomFilter.__init__`: validates `0 < error_rate < 1` and `capacity > 0`,
then derives `(num_slices, bits_per_slice)` through the parameter solver and
allocates an all-zero bit vector of `num_slices * bits_per_slice` bits. -/
def mkBloomFilter (solve : Solver) (capacity : ℤ) (error_rate : ℚ) :
    Except Unit BloomFilter :=
  if 0 < error_rate ∧ error_rate < 1 then
    if 0 < capacity then
      .ok { error_rate := error_rate
            num_slices := (solve capacity.toNat error_rate).1
            bits_per_slice := (solve capacity.toNat error_rate).2
            capacity := capacity.toNat
            count := 0
            bits := List.replicate
              ((solve capacity.toNat error_rate).1 * (solve capacity.toNat error_rate).2)
              false }
    else .error ()
  else .error ()

/-- The hash position sequence `self.make_hashes(key)` of a filter. -/
def bfHashes (raw : RawHash) (f : BloomFilter) (key : Key) : List ℕ :=
  hashPositions f.num_slices f.bits_per_slice (raw f.num_slices f.bits_per_slice key)

/-- The loop of `__contains__`: starting at `offset`, check the bit at
`offset + k` for each position `k`, advancing `offset` by `bits_per_slice`. -/
def containsLoop (bits : List Bool) (bits_per_slice : ℕ) : ℕ → List ℕ → Bool
  | _, [] => true
  | offset, k :: ks =>
      bits.getD (offset + k) false && containsLoop bits bits_per_slice (offset + bits_per_slice) ks

/-- Membership test `key in self`. -/
def bfContains (raw : RawHash) (f : BloomFilter) (key : Key) : Bool :=
  containsLoop f.bits f.bits_per_slice 0 (bfHashes raw f key)

/-- The absolute bit indices `offset + k` touched by the loops of
`__contains__` and `add`. -/
def absIndices (bits_per_slice : ℕ) : ℕ → List ℕ → List ℕ
  | _, [] => []
  | offset, k :: ks => (offset + k) :: absIndices bits_per_slice (offset + bits_per_slice) ks

/-- The bit-setting loop of `add`: reads the bit at `offset + k` into the
`found_all_bits` accumulator before setting it, in interleaved order exactly
as the Python loop does. -/
def addLoop (bits_per_slice : ℕ) : ℕ → List Bool → Bool → List ℕ → List Bool × Bool
  | _, bits, found_all_bits, [] => (bits, found_all_bits)
  | offset, bits, found_all_bits, k :: ks =>
      addLoop bits_per_slice (offset + bits_per_slice)
        (bits.set (offset + k) true)
        (found_all_bits && bits.getD (offset + k) false) ks

/-- The bit vector after `add` has set every hashed bit of `key`. -/
def bfSetBits (raw : RawHash) (f : BloomFilter) (key : Key) : List Bool :=
  (absIndices f.bits_per_slice 0 (bfHashes raw f key)).foldl
    (fun bs i => bs.set i true) f.bits

/-- Model of `BloomFilter.add`: raises (capacity-exceeded) when `count > capacity`
strictly, before any bit is set; otherwise sets every hashed bit and returns
`(new filter state, reported membership)`. -/
def bfAdd (raw : RawHash) (f : BloomFilter) (key : Key) (skip_check : Bool) :
    Except Unit (BloomFilter × Bool) :=
  let ks := bfHashes raw f key
  if f.count > f.capacity then .error ()
  else
    let r := addLoop f.bits_per_slice 0 f.bits true ks
    if skip_check then
      .ok ({ f with bits := r.1, count := f.count + 1 }, false)
    else if !r.2 then
      .ok ({ f with bits := r.1, count := f.count + 1 }, false)
    else
      .ok ({ f with bits := r.1 }, true)

/-- Model of `BloomFilter.copy`: a fresh constructor call followed by overwriting the
bit vector and the count. -/
def bfCopy (solve : Solver) (f : BloomFilter) : Except Unit BloomFilter :=
  match mkBloomFilter solve (f.capacity : ℤ) f.error_rate with
  | .error e => .error e
  | .ok g => .ok { g with bits := f.bits, count := f.count }

/-- The cardinality estimator shared by `union` and `intersection`:
`int(log(1 - set_bits/total_bits) / (num_slices * log(1 - 1/total_bits)))`,
with the bare `except:` fallback `count = total_bits` exactly when the
computation raises (`total_bits = 0` divides by zero, `total_bits = 1` or
`set_bits = total_bits` takes `log` of a non-positive value, and
`num_slices = 0` divides by zero).  The quotient is non-negative, so Python's
truncation towards zero coincides with `Int.floor`.  Floats are idealised as
exact reals. -/
noncomputable def estimateCount (set_bits total_bits num_slices : ℕ) : ℕ :=
  if set_bits < total_bits ∧ 2 ≤ total_bits ∧ 1 ≤ num_slices then
    (Int.floor (Real.log (1 - (set_bits : ℝ) / (total_bits : ℝ)) /
      ((num_slices : ℝ) * Real.log (1 - 1 / (total_bits : ℝ))))).toNat
  else total_bits

/-- Model of `BloomFilter.union`: requires equal capacity and error rate, copies
`self`, ORs the bit vectors and re-estimates the count. -/
noncomputable def bfUnion (solve : Solver) (self other : BloomFilter) :
    Except Unit BloomFilter :=
  if self.capacity ≠ other.capacity ∨ self.error_rate ≠ other.error_rate then
    .error ()
  else
    match bfCopy solve self with
    | .error e => .error e
    | .ok c =>
        let orBits := List.zipWith (fun x y => x || y) c.bits other.bits
        .ok { c with
                bits := orBits
                count := estimateCount (orBits.count true) orBits.length c.num_slices }

/-- Model of `BloomFilter.intersection`: same as `union` with AND instead of OR. -/
noncomputable def bfIntersection (solve : Solver) (self other : BloomFilter) :
    Except Unit BloomFilter :=
  if self.capacity ≠ other.capacity ∨ self.error_rate ≠ other.error_rate then
    .error ()
  else
    match bfCopy solve self with
    | .error e => .error e
    | .ok c =>
        let andBits := List.zipWith (fun x y => x && y) c.bits other.bits
        .ok { c with
                bits := andBits
                count := estimateCount (andBits.count true) andBits.length c.num_slices }

/-! ### Binary serialization (pybloom.py lines 297-329)

The serialization pair `BloomFilter.tofile`/`BloomFilter.fromfile` is not
modelled: the length check of `fromfile` (pybloom.py lines 324-327) contains
an unclosed parenthesis, so the statement — and with it the whole module —
does not parse (Python reports a SyntaxError at line 325).  The staged
program therefore defines no deserialization behaviour that an embedding
could be faithful to. -/

/-! ### ScalableBloomFilter (pybloom.py lines 341-502) -/

/-- State of a `ScalableBloomFilter`.  The field `ratioVal` models the
Python attribute `self.ratio` (the error tightening ratio). -/
structure ScalableBloomFilter where
  scale : ℕ
  ratioVal : ℚ
  initial_capacity : ℤ
  error_rate : ℚ
  filters : List BloomFilter
deriving DecidableEq, Repr

/-- Model of `ScalableBloomFilter.__init__`: only validates
`not error_rate or error_rate < 0`, i.e. raises exactly when
`error_rate ≤ 0`; sets `ratio = 0.9` and starts with no sub-filters. -/
def mkScalableBloomFilter (initial_capacity : ℤ) (error_rate : ℚ) (mode : ℕ) :
    Except Unit ScalableBloomFilter :=
  if error_rate = 0 ∨ error_rate < 0 then .error ()
  else
    .ok { scale := mode
          ratioVal := 9 / 10
          initial_capacity := initial_capacity
          error_rate := error_rate
          filters := [] }

/-- Model of `ScalableBloomFilter.__contains__`: scans the sub-filters
most-recently-created first (`reversed(self.filters)`). -/
def sbfContains (raw : RawHash) (s : ScalableBloomFilter) (key : Key) : Bool :=
  s.filters.reverse.any fun f => bfContains raw f key

/-- Model of `ScalableBloomFilter.add`: duplicate detection over the whole sequence,
then lazy creation of the first sub-filter or geometric growth when the last
sub-filter is full, then a skip-check insert into the (possibly new) last
sub-filter. -/
def sbfAdd (raw : RawHash) (solve : Solver) (s : ScalableBloomFilter) (key : Key) :
    Except Unit (ScalableBloomFilter × Bool) :=
  if sbfContains raw s key then .ok (s, true)
  else
    match s.filters.getLast? with
    | none =>
        match mkBloomFilter solve s.initial_capacity
            (s.error_rate * (1 - s.ratioVal)) with
        | .error e => .error e
        | .ok f =>
            match bfAdd raw f key true with
            | .error e => .error e
            | .ok (f2, _) => .ok ({ s with filters := [f2] }, false)
    | some last =>
        if last.count ≥ last.capacity then
          match mkBloomFilter solve ((last.capacity * s.scale : ℕ) : ℤ)
              (last.error_rate * s.ratioVal) with
          | .error e => .error e
          | .ok f =>
              match bfAdd raw f key true with
              | .error e => .error e
              | .ok (f2, _) => .ok ({ s with filters := s.filters ++ [f2] }, false)
        else
          match bfAdd raw last key true with
          | .error e => .error e
          | .ok (f2, _) =>
              .ok ({ s with filters := s.filters.dropLast ++ [f2] }, false)

/-! ### DynamicBloomFilter (pybloom.py lines 505-717) -/

/-- State of a `DynamicBloomFilter`. -/
structure DynamicBloomFilter where
  base_capacity : ℤ
  max_capacity : ℤ
  individual_error_rate : ℚ
  max_error_rate : ℚ
  filters : List BloomFilter
deriving DecidableEq, Repr

/-- Model of `DynamicBloomFilter.__init__` and `_setup`.  The explicit check
`not error_rate or error_rate < 0` raises exactly when `error_rate ≤ 0`.
`_setup` then evaluates
`1 - exp(log(1 - error_rate) / ceil(max_capacity / base_capacity))`
(line 542), which itself raises in two further cases: `math.log(1 - error_rate)`
is a domain error when `error_rate ≥ 1`, and the division raises
`ZeroDivisionError` when `math.ceil(max_capacity / base_capacity)` is 0 —
`base_capacity = 0` already raises `ZeroDivisionError` at the inner division,
and since division by zero in `ℚ` yields 0, that case lands in the same
branch of the model.  Only the value of the expression on the non-raising
path stays uninterpreted, through `ierFn`. -/
def mkDynamicBloomFilter (ierFn : IerFn) (base_capacity max_capacity : ℤ)
    (error_rate : ℚ) : Except Unit DynamicBloomFilter :=
  if error_rate = 0 ∨ error_rate < 0 then .error ()
  else if 1 ≤ error_rate then .error ()
  else if Int.ceil ((max_capacity : ℚ) / (base_capacity : ℚ)) = 0 then .error ()
  else
    .ok { base_capacity := base_capacity
          max_capacity := max_capacity
          individual_error_rate := ierFn base_capacity max_capacity error_rate
          max_error_rate := error_rate
          filters := [] }

/-- The copy loop at the start of `DynamicBloomFilter.union`:
`for filter in other.filters: other_filters.append(filter.copy())`. -/
def copyAll (solve : Solver) : List BloomFilter → Except Unit (List BloomFilter)
  | [] => .ok []
  | f :: fs =>
      match bfCopy solve f with
      | .error e => .error e
      | .ok g =>
          match copyAll solve fs with
          | .error e => .error e
          | .ok gs => .ok (g :: gs)

/-- The inner loop of `DynamicBloomFilter.union`: scan `other_filters` from
the end backwards for the first slot whose union with `my_filters[i]` has
`count < base_capacity`; replace that slot on success.  Returns `some` of the
updated list when a mate was found, `none` otherwise. -/
noncomputable def dynUnionScan (solve : Solver) (base : ℤ) (mf : BloomFilter) :
    List BloomFilter → Except Unit (Option (List BloomFilter))
  | [] => .ok none
  | g :: gs =>
      match dynUnionScan solve base mf gs with
      | .error e => .error e
      | .ok (some gs2) => .ok (some (g :: gs2))
      | .ok none =>
          match bfUnion solve mf g with
          | .error e => .error e
          | .ok u =>
              if (u.count : ℤ) < base then .ok (some (u :: gs)) else .ok none

/-- The outer loop of `DynamicBloomFilter.union`: for each of `self`'s
sub-filters, either merge it into a slot of the accumulated list or append
it unchanged. -/
noncomputable def dynUnionOuter (solve : Solver) (base : ℤ) :
    List BloomFilter → List BloomFilter → Except Unit (List BloomFilter)
  | [], others => .ok others
  | mf :: mfs, others =>
      match dynUnionScan solve base mf others with
      | .error e => .error e
      | .ok (some others2) => dynUnionOuter solve base mfs others2
      | .ok none => dynUnionOuter solve base mfs (others ++ [mf])

/-- Model of `DynamicBloomFilter.union`: compares only `base_capacity` and
`individual_error_rate`, builds the result through the constructor from
`self`'s `base_capacity`, `max_capacity` and `max_error_rate`, copies
`other`'s sub-filters and greedily merges `self`'s into them. -/
noncomputable def dynUnion (ierFn : IerFn) (solve : Solver)
    (self other : DynamicBloomFilter) : Except Unit DynamicBloomFilter :=
  if self.base_capacity ≠ other.base_capacity ∨
      self.individual_error_rate ≠ other.individual_error_rate then .error ()
  else
    match mkDynamicBloomFilter ierFn self.base_capacity self.max_capacity
        self.max_error_rate with
    | .error e => .error e
    | .ok nb =>
        match copyAll solve other.filters with
        | .error e => .error e
        | .ok others =>
            match dynUnionOuter solve self.base_capacity self.filters others with
            | .error e => .error e
            | .ok merged => .ok { nb with filters := merged }

/-- Python truthiness of a `BloomFilter`: through `__len__`, a filter is
truthy exactly when `count != 0`. -/
def pyBool (f : BloomFilter) : Bool := f.count != 0

/-- Python's `and` on two `BloomFilter` objects: returns the right operand
when the left is truthy, otherwise the left operand.  This is what line 641
of pybloom.py (`bloom_filter and other_filter`) actually evaluates — it is
NOT `__and__`/`intersection`. -/
def pyAnd (a b : BloomFilter) : BloomFilter := if pyBool a then b else a

/-- Python's `or` on two `BloomFilter` objects: returns the left operand when
it is truthy, otherwise the right operand.  This is what line 641 of
pybloom.py (`bloom or ...`) actually evaluates — it is NOT `__or__`/`union`. -/
def pyOr (a b : BloomFilter) : BloomFilter := if pyBool a then a else b

/-- The inner loop of `DynamicBloomFilter.intersection`:
`for other_filter in other.filters: bloom = bloom or (bloom_filter and other_filter)`
with Python truthiness semantics. -/
def dynIntersectionInner (bloom_filter : BloomFilter) :
    List BloomFilter → BloomFilter → BloomFilter
  | [], bloom => bloom
  | g :: gs, bloom =>
      dynIntersectionInner bloom_filter gs (pyOr bloom (pyAnd bloom_filter g))

/-- The outer loop of `DynamicBloomFilter.intersection`: for each of `self`'s
sub-filters, construct a fresh accumulator and run the inner loop over all of
`other`'s sub-filters, appending the accumulator unconditionally. -/
def dynIntersectionOuter (solve : Solver) (base : ℤ) (ier : ℚ)
    (others : List BloomFilter) : List BloomFilter → Except Unit (List BloomFilter)
  | [] => .ok []
  | bf :: bfs =>
      match mkBloomFilter solve base ier with
      | .error e => .error e
      | .ok fresh =>
          match dynIntersectionOuter solve base ier others bfs with
          | .error e => .error e
          | .ok rest => .ok (dynIntersectionInner bf others fresh :: rest)

/-- Model of `DynamicBloomFilter.intersection`, faithful to the code (including the
truthiness `or`/`and` on line 641). -/
def dynIntersection (ierFn : IerFn) (solve : Solver)
    (self other : DynamicBloomFilter) : Except Unit DynamicBloomFilter :=
  if self.base_capacity ≠ other.base_capacity ∨
      self.individual_error_rate ≠ other.individual_error_rate then .error ()
  else
    match mkDynamicBloomFilter ierFn self.base_capacity self.max_capacity
        self.max_error_rate with
    | .error e => .error e
    | .ok nb =>
        match dynIntersectionOuter solve self.base_capacity
            self.individual_error_rate other.filters self.filters with
        | .error e => .error e
        | .ok fs => .ok { nb with filters := fs }

/-- Modelled from the spec: the accumulator fold the spec (and the method's
own docstring) describe for `DynamicBloomFilter.intersection` — the bit
vector obtained by starting from a fresh all-zero accumulator and OR-ing in
the bitwise AND of the self sub-filter's bits with each of the other's
sub-filters' bits in turn. -/
def dynIntersectionSpecBits (self_bits : List Bool)
    (other_bits_list : List (List Bool)) (acc : List Bool) : List Bool :=
  other_bits_list.foldl
    (fun a g => List.zipWith (fun x y => x || y) a
      (List.zipWith (fun x y => x && y) self_bits g)) acc

/-! ### Concrete instantiations used by witnesses and counterexamples -/

/-- The rational `1/2` in kernel-reducible normal form. -/
def half : ℚ := Rat.mk' 1 2 (by norm_num) (by norm_num)

/-- A concrete raw-hash family: every unpacked digest value is 0. -/
def raw0 : RawHash := fun _ _ _ _ _ => 0

/-- A concrete parameter solver: always one slice of two bits. -/
def solve0 : Solver := fun _ _ => (1, 2)

/-- A concrete individual-error-rate derivation: always `1/2`. -/
def ierFn0 : IerFn := fun _ _ _ => half

/-- A concrete empty one-slice/two-bit filter. -/
def bfW : BloomFilter :=
  { error_rate := half, num_slices := 1, bits_per_slice := 2
    capacity := 1, count := 1, bits := [true, false] }

/-- A concrete filter with the complementary bit set. -/
def bfV : BloomFilter :=
  { error_rate := half, num_slices := 1, bits_per_slice := 2
    capacity := 1, count := 1, bits := [false, true] }

/-- A concrete empty scalable filter. -/
def sbfW : ScalableBloomFilter :=
  { scale := 2, ratioVal := 9 / 10, initial_capacity := 3
    error_rate := half, filters := [] }

/-- A concrete dynamic filter holding `bfW`. -/
def dbfA3 : DynamicBloomFilter :=
  { base_capacity := 1, max_capacity := 5, individual_error_rate := half
    max_error_rate := half, filters := [bfW] }

/-- A concrete dynamic filter holding `bfV`. -/
def dbfB3 : DynamicBloomFilter :=
  { base_capacity := 1, max_capacity := 5, individual_error_rate := half
    max_error_rate := half, filters := [bfV] }

/-- A concrete empty dynamic filter with `max_capacity = 5`. -/
def dbfA10 : DynamicBloomFilter :=
  { base_capacity := 1, max_capacity := 5, individual_error_rate := half
    max_error_rate := half, filters := [] }

/-- A concrete empty dynamic filter with `max_capacity = 7`: identical
`base_capacity`/`individual_error_rate` but different `max_capacity`. -/
def dbfB10 : DynamicBloomFilter :=
  { base_capacity := 1, max_capacity := 7, individual_error_rate := half
    max_error_rate := half, filters := [] }

/-! ### Helper lemmas -/

theorem chunkSize_pos (nb : ℕ) : 0 < chunkSize nb := by
  unfold chunkSize; split
  · norm_num
  · split <;> norm_num

theorem chunkSize_le_eight (nb : ℕ) : chunkSize nb ≤ 8 := by
  unfold chunkSize; split
  · norm_num
  · split <;> norm_num

theorem digestSize_ge_sixteen (ns nb : ℕ) : 16 ≤ digestSize ns nb := by
  unfold digestSize; split
  · norm_num
  · split
    · norm_num
    · split
      · norm_num
      · split <;> norm_num

theorem fmtLen_pos (ns nb : ℕ) : 0 < fmtLen ns nb := by
  unfold fmtLen
  exact Nat.div_pos (le_trans (le_trans (chunkSize_le_eight nb) (by norm_num))
    (digestSize_ge_sixteen ns nb)) (chunkSize_pos nb)

theorem numSalts_mul_fmtLen_ge (ns nb : ℕ) : ns ≤ numSalts ns nb * fmtLen ns nb := by
  have hf : 0 < fmtLen ns nb := fmtLen_pos ns nb
  have hdm := Nat.div_add_mod ns (fmtLen ns nb)
  have hlt : ns % fmtLen ns nb < fmtLen ns nb := Nat.mod_lt ns hf
  unfold numSalts
  rcases Nat.eq_zero_or_pos (ns % fmtLen ns nb) with h0 | hpos
  · rw [h0]
    norm_num
    have h2 : ns / fmtLen ns nb * fmtLen ns nb = fmtLen ns nb * (ns / fmtLen ns nb) :=
      Nat.mul_comm _ _
    omega
  · rw [if_neg (by omega)]
    have h2 : (ns / fmtLen ns nb + 1) * fmtLen ns nb
        = fmtLen ns nb * (ns / fmtLen ns nb) + fmtLen ns nb := by ring
    omega

theorem length_range_flatMap_map (m : ℕ) (g : ℕ → ℕ → ℕ) :
    ∀ n : ℕ, (((List.range n).flatMap fun s => (List.range m).map (g s))).length = n * m := by
  intro n
  induction n with
  | zero => simp
  | succ k ih =>
      rw [List.range_succ, List.flatMap_append]
      simp [ih, Nat.succ_mul]

theorem hashPositions_length (ns nb : ℕ) (raw : ℕ → ℕ → ℕ) :
    (hashPositions ns nb raw).length = ns := by
  unfold hashPositions
  rw [List.length_take, length_range_flatMap_map]
  exact Nat.min_eq_left (numSalts_mul_fmtLen_ge ns nb)

theorem hashPositions_lt (ns nb : ℕ) (raw : ℕ → ℕ → ℕ) (hnb : 0 < nb) :
    ∀ p ∈ hashPositions ns nb raw, p < nb := by
  intro p hp
  unfold hashPositions at hp
  have hp2 := List.mem_of_mem_take hp
  rcases List.mem_flatMap.mp hp2 with ⟨s, _, hs⟩
  rcases List.mem_map.mp hs with ⟨c, _, hc⟩
  rw [← hc]
  exact Nat.mod_lt _ hnb

theorem absIndices_lt (bps : ℕ) :
    ∀ (ks : List ℕ) (offset : ℕ), (∀ k ∈ ks, k < bps) →
      ∀ j ∈ absIndices bps offset ks, j < offset + ks.length * bps := by
  intro ks
  induction ks with
  | nil => intro offset _ j hj; simp [absIndices] at hj
  | cons k ks ih =>
      intro offset hk j hj
      simp only [absIndices, List.mem_cons] at hj
      rcases hj with rfl | hj
      · have hkb : k < bps := hk k (by simp)
        simp only [List.length_cons, Nat.succ_mul]
        omega
      · have := ih (offset + bps) (fun x hx => hk x (by simp [hx])) j hj
        simp only [List.length_cons, Nat.succ_mul]
        omega

theorem getD_set_of_ne (l : List Bool) (v d : Bool) :
    ∀ (i j : ℕ), i ≠ j → (l.set i v).getD j d = l.getD j d := by
  induction l with
  | nil => intro i j _; simp
  | cons a t ih =>
      intro i j hij
      cases i with
      | zero =>
          cases j with
          | zero => exact absurd rfl hij
          | succ j2 => simp [List.getD]
      | succ i2 =>
          cases j with
          | zero => simp [List.getD]
          | succ j2 =>
              simp only [List.set, List.getD_cons_succ]
              exact ih i2 j2 (by omega)

theorem containsLoop_set_of_lt (bps : ℕ) (v : Bool) :
    ∀ (ks : List ℕ) (offset i : ℕ) (bits : List Bool), i < offset →
      containsLoop (bits.set i v) bps offset ks = containsLoop bits bps offset ks := by
  intro ks
  induction ks with
  | nil => intro offset i bits _; simp [containsLoop]
  | cons k ks ih =>
      intro offset i bits hlt
      simp only [containsLoop]
      rw [getD_set_of_ne bits v false i (offset + k) (by omega),
        ih (offset + bps) i bits (by omega)]

theorem addLoop_fst (bps : ℕ) :
    ∀ (ks : List ℕ) (offset : ℕ) (bits : List Bool) (b : Bool),
      (addLoop bps offset bits b ks).1
        = (absIndices bps offset ks).foldl (fun bs i => bs.set i true) bits := by
  intro ks
  induction ks with
  | nil => intro offset bits b; simp [addLoop, absIndices]
  | cons k ks ih =>
      intro offset bits b
      simp only [addLoop, absIndices, List.foldl_cons]
      exact ih (offset + bps) (bits.set (offset + k) true) _

theorem addLoop_snd (bps : ℕ) :
    ∀ (ks : List ℕ) (offset : ℕ) (bits : List Bool) (b : Bool),
      (∀ k ∈ ks, k < bps) →
      (addLoop bps offset bits b ks).2 = (b && containsLoop bits bps offset ks) := by
  intro ks
  induction ks with
  | nil => intro offset bits b _; simp [addLoop, containsLoop]
  | cons k ks ih =>
      intro offset bits b hk
      simp only [addLoop, containsLoop]
      rw [ih (offset + bps) (bits.set (offset + k) true)
        (b && bits.getD (offset + k) false) (fun x hx => hk x (by simp [hx]))]
      rw [containsLoop_set_of_lt bps true ks (offset + bps) (offset + k) bits
        (by have := hk k (by simp); omega)]
      rw [Bool.and_assoc]

/-! ### Claim theorems -/

/-- C5: for every `slice_count > 0` and `bits_per_slice > 0`, the hash
sequence generator produces exactly `slice_count` positions, each strictly
below `bits_per_slice`, and every absolute bit index `offset + position`
formed by the loops of `__contains__` and `add` lies strictly below
`total_bits = slice_count * bits_per_slice`, so the bit-vector indexing
never goes out of bounds. -/
theorem make_hashfuncs_position_bounds (ns nb : ℕ) (raw : ℕ → ℕ → ℕ)
    (hns : 0 < ns) (hnb : 0 < nb) :
    (hashPositions ns nb raw).length = ns ∧
    (∀ p ∈ hashPositions ns nb raw, p < nb) ∧
    (∀ j ∈ absIndices nb 0 (hashPositions ns nb raw), j < ns * nb) := by
  refine ⟨hashPositions_length ns nb raw, hashPositions_lt ns nb raw hnb, ?_⟩
  intro j hj
  have h := absIndices_lt nb (hashPositions ns nb raw) 0
    (hashPositions_lt ns nb raw hnb) j hj
  rw [hashPositions_length] at h
  omega

/-- Witness for C5 at `slice_count = 1`, `bits_per_slice = 2`. -/
theorem make_hashfuncs_position_bounds_witness :
    (0 < 1 ∧ 0 < 2) ∧
    ((hashPositions 1 2 fun _ _ => 0).length = 1 ∧
     (∀ p ∈ hashPositions 1 2 fun _ _ => 0, p < 2) ∧
     (∀ j ∈ absIndices 2 0 (hashPositions 1 2 fun _ _ => 0), j < 1 * 2)) :=
  ⟨by norm_num,
   make_hashfuncs_position_bounds 1 2 (fun _ _ => 0) (by norm_num) (by norm_num)⟩

/-- C1: on a filter that is not over capacity, `add key skip_check=False`
returns exactly the pre-call membership test result (`True` iff every hashed
bit was already set before the call); the count is unchanged in that case
and incremented otherwise; the hashed bits are set in both cases.  With
`skip_check=True` the call always increments the count and returns `False`. -/
theorem bloom_add_semantics (raw : RawHash) (f : BloomFilter) (key : Key)
    (hcap : f.count ≤ f.capacity) (hbps : 0 < f.bits_per_slice) :
    bfAdd raw f key false =
      .ok ({ f with
              bits := bfSetBits raw f key
              count := if bfContains raw f key then f.count else f.count + 1 },
           bfContains raw f key) ∧
    bfAdd raw f key true =
      .ok ({ f with bits := bfSetBits raw f key, count := f.count + 1 }, false) := by
  have hks : ∀ k ∈ bfHashes raw f key, k < f.bits_per_slice :=
    hashPositions_lt _ _ _ hbps
  have hno : ¬ f.count > f.capacity := by omega
  have hr1 : (addLoop f.bits_per_slice 0 f.bits true (bfHashes raw f key)).1
      = bfSetBits raw f key := by
    rw [addLoop_fst]; rfl
  have hr2 : (addLoop f.bits_per_slice 0 f.bits true (bfHashes raw f key)).2
      = bfContains raw f key := by
    rw [addLoop_snd _ _ _ _ _ hks, Bool.true_and]; rfl
  constructor
  · simp only [bfAdd, if_neg hno]
    rw [hr1, hr2]
    cases hb : bfContains raw f key <;> simp [hb]
  · simp only [bfAdd, if_neg hno]
    rw [hr1]
    simp

/-- Witness for C1 on a concrete filter and key. -/
theorem bloom_add_semantics_witness :
    (bfW.count ≤ bfW.capacity ∧ 0 < bfW.bits_per_slice) ∧
    (bfAdd raw0 bfW 0 false =
      .ok ({ bfW with
              bits := bfSetBits raw0 bfW 0
              count := if bfContains raw0 bfW 0 then bfW.count else bfW.count + 1 },
           bfContains raw0 bfW 0) ∧
     bfAdd raw0 bfW 0 true =
      .ok ({ bfW with bits := bfSetBits raw0 bfW 0, count := bfW.count + 1 }, false)) :=
  ⟨by decide, bloom_add_semantics raw0 bfW 0 (by decide) (by decide)⟩

/-- C4: `add` raises the capacity-exceeded error exactly when
`count > capacity` strictly (a filter therefore accepts one insertion beyond
its nominal capacity before failing on the next call), in either skip-check
mode.  In this state-passing embedding the error is returned before any new
bit vector is constructed — mirroring the source, where the check precedes
the bit-setting loop — so no bit and no scalar field changes on the error
path. -/
theorem bloom_add_capacity_error (raw : RawHash) (f : BloomFilter) (key : Key)
    (skip_check : Bool) :
    bfAdd raw f key skip_check = .error () ↔ f.capacity < f.count := by
  simp only [bfAdd]
  split
  · simp
    omega
  · split
    · simp
      omega
    · split
      · simp
        omega
      · simp
        omega

/-- C9 (corrected): `BloomFilter.__init__` raises exactly when
`capacity ≤ 0` or `error_rate` lies outside `(0,1)`, as the claim states.
`ScalableBloomFilter.__init__` raises exactly when `error_rate ≤ 0` — an
`error_rate ≥ 1` and a non-positive capacity are accepted there.
`DynamicBloomFilter.__init__`'s explicit check likewise rejects only
`error_rate ≤ 0`, but its individual-error-rate derivation additionally
raises for `error_rate ≥ 1` (logarithm of a non-positive number) and
whenever `ceil(max_capacity / base_capacity) = 0`, which includes
`base_capacity = 0` (division by zero); a negative `base_capacity` with
`ceil(max_capacity / base_capacity) ≠ 0` is accepted. -/
theorem constructor_validation (solve : Solver) (ierFn : IerFn)
    (cap maxcap : ℤ) (er : ℚ) (mode : ℕ) :
    (mkBloomFilter solve cap er = .error () ↔ er ≤ 0 ∨ 1 ≤ er ∨ cap ≤ 0) ∧
    (mkScalableBloomFilter cap er mode = .error () ↔ er ≤ 0) ∧
    (mkDynamicBloomFilter ierFn cap maxcap er = .error () ↔
      er ≤ 0 ∨ 1 ≤ er ∨ Int.ceil ((maxcap : ℚ) / (cap : ℚ)) = 0) := by
  refine ⟨?_, ?_, ?_⟩
  · simp only [mkBloomFilter]
    split
    next h =>
      split
      next hc =>
        simp
        exact ⟨h.1, h.2, hc⟩
      next hc =>
        simp
        exact Or.inr (Or.inr (by omega))
    next h =>
      simp
      rcases not_and_or.mp h with h1 | h2
      · exact Or.inl (not_lt.mp h1)
      · exact Or.inr (Or.inl (not_lt.mp h2))
  · simp only [mkScalableBloomFilter]
    split
    next h =>
      simp
      rcases h with rfl | h
      · exact le_refl 0
      · exact le_of_lt h
    next h =>
      push_neg at h
      have hpos : 0 < er := lt_of_le_of_ne h.2 (Ne.symm h.1)
      simp [not_le.mpr hpos]
  · simp only [mkDynamicBloomFilter]
    split
    next h =>
      simp
      rcases h with rfl | h
      · exact Or.inl (le_refl 0)
      · exact Or.inl (le_of_lt h)
    next h =>
      split
      next h2 =>
        simp
        exact Or.inr (Or.inl h2)
      next h2 =>
        split
        next h3 =>
          exact iff_of_true rfl (Or.inr (Or.inr h3))
        next h3 =>
          push_neg at h
          have hpos : 0 < er := lt_of_le_of_ne h.2 (Ne.symm h.1)
          exact iff_of_false (by simp)
            (by push_neg; exact ⟨hpos, not_le.mp h2, h3⟩)

/-- Counterexample to C9 as stated: the `ScalableBloomFilter` constructor
accepts `error_rate = 2`, which lies outside `(0,1)`, without raising; and
the `DynamicBloomFilter` constructor accepts `base_capacity = -1 ≤ 0`
(with `max_capacity = 5`, so `ceil(5 / -1) = -5 ≠ 0`) without raising. -/
theorem constructors_accept_out_of_range_parameters :
    (mkScalableBloomFilter 100 2 2 =
      .ok { scale := 2, ratioVal := 9 / 10, initial_capacity := 100
            error_rate := 2, filters := [] } ∧
     ¬ (0 < (2 : ℚ) ∧ (2 : ℚ) < 1)) ∧
    (mkDynamicBloomFilter ierFn0 (-1) 5 half =
      .ok { base_capacity := -1, max_capacity := 5
            individual_error_rate := ierFn0 (-1) 5 half
            max_error_rate := half, filters := [] } ∧
     (-1 : ℤ) ≤ 0) := by
  refine ⟨⟨rfl, by norm_num⟩, ?_, by decide⟩
  have c1 : ¬ (half = 0 ∨ half < 0) := by decide
  have c2 : ¬ (1 ≤ half) := by decide
  have c3 : ¬ Int.ceil (((5 : ℤ) : ℚ) / ((-1 : ℤ) : ℚ)) = 0 := by
    rw [show (((5 : ℤ) : ℚ) / ((-1 : ℤ) : ℚ)) = (((-5 : ℤ)) : ℚ) by norm_num,
      Int.ceil_intCast]
    decide
  simp only [mkDynamicBloomFilter, if_neg c1, if_neg c2, if_neg c3]

theorem bfCopy_ok (solve : Solver) (f : BloomFilter) (hc : 0 < f.capacity)
    (he0 : 0 < f.error_rate) (he1 : f.error_rate < 1) :
    bfCopy solve f = .ok
      { error_rate := f.error_rate
        num_slices := (solve f.capacity f.error_rate).1
        bits_per_slice := (solve f.capacity f.error_rate).2
        capacity := f.capacity
        count := f.count
        bits := f.bits } := by
  have hcz : (0 : ℤ) < (f.capacity : ℤ) := by exact_mod_cast hc
  simp only [bfCopy, mkBloomFilter, if_pos (And.intro he0 he1), if_pos hcz,
    Int.toNat_natCast]

/-- C2: for equal capacity and error rate, `union` (resp. `intersection`)
returns a filter whose bit vector is the bitwise OR (resp. AND) of the two
operands' bit vectors and whose count is the closed-form cardinality
estimate `estimateCount` — the integer value of
`log(1 - set_bits/total_bits) / (slice_count * log(1 - 1/total_bits))`
with fallback `total_bits` when the formula is undefined; capacity and error
rate are inherited.  On mismatched capacity or error rate both operations
raise. -/
theorem bloom_union_intersection_spec (solve : Solver) (a b : BloomFilter)
    (hcap : a.capacity = b.capacity) (her : a.error_rate = b.error_rate)
    (hpos : 0 < a.capacity) (he0 : 0 < a.error_rate) (he1 : a.error_rate < 1)
    (hns : a.num_slices = (solve a.capacity a.error_rate).1) :
    (∃ u, bfUnion solve a b = .ok u ∧
       u.bits = List.zipWith (fun x y => x || y) a.bits b.bits ∧
       u.count = estimateCount (u.bits.count true) u.bits.length a.num_slices ∧
       u.capacity = a.capacity ∧ u.error_rate = a.error_rate) ∧
    (∃ v, bfIntersection solve a b = .ok v ∧
       v.bits = List.zipWith (fun x y => x && y) a.bits b.bits ∧
       v.count = estimateCount (v.bits.count true) v.bits.length a.num_slices ∧
       v.capacity = a.capacity ∧ v.error_rate = a.error_rate) ∧
    (∀ c d : BloomFilter,
       c.capacity ≠ d.capacity ∨ c.error_rate ≠ d.error_rate →
       bfUnion solve c d = .error () ∧ bfIntersection solve c d = .error ()) := by
  have hmis : ¬ (a.capacity ≠ b.capacity ∨ a.error_rate ≠ b.error_rate) := by
    push_neg
    exact ⟨hcap, her⟩
  have hcopy := bfCopy_ok solve a hpos he0 he1
  refine ⟨?_, ?_, ?_⟩
  · simp only [bfUnion, if_neg hmis, hcopy]
    refine ⟨_, rfl, rfl, ?_, rfl, rfl⟩
    rw [hns]
  · simp only [bfIntersection, if_neg hmis, hcopy]
    refine ⟨_, rfl, rfl, ?_, rfl, rfl⟩
    rw [hns]
  · intro c d hcd
    constructor
    · simp only [bfUnion, if_pos hcd]
    · simp only [bfIntersection, if_pos hcd]

/-- Witness for C2 on two concrete one-slice filters. -/
theorem bloom_union_intersection_spec_witness :
    (bfW.capacity = bfV.capacity ∧ bfW.error_rate = bfV.error_rate ∧
     0 < bfW.capacity ∧ 0 < bfW.error_rate ∧ bfW.error_rate < 1 ∧
     bfW.num_slices = (solve0 bfW.capacity bfW.error_rate).1) ∧
    ((∃ u, bfUnion solve0 bfW bfV = .ok u ∧
       u.bits = List.zipWith (fun x y => x || y) bfW.bits bfV.bits ∧
       u.count = estimateCount (u.bits.count true) u.bits.length bfW.num_slices ∧
       u.capacity = bfW.capacity ∧ u.error_rate = bfW.error_rate) ∧
     (∃ v, bfIntersection solve0 bfW bfV = .ok v ∧
       v.bits = List.zipWith (fun x y => x && y) bfW.bits bfV.bits ∧
       v.count = estimateCount (v.bits.count true) v.bits.length bfW.num_slices ∧
       v.capacity = bfW.capacity ∧ v.error_rate = bfW.error_rate) ∧
     (∀ c d : BloomFilter,
       c.capacity ≠ d.capacity ∨ c.error_rate ≠ d.error_rate →
       bfUnion solve0 c d = .error () ∧ bfIntersection solve0 c d = .error ())) :=
  ⟨⟨by decide, by decide, by decide, by decide, by decide, by decide⟩,
   bloom_union_intersection_spec solve0 bfW bfV (by decide) (by decide) (by decide)
     (by decide) (by decide) (by decide)⟩

/-- C3 (code bug): on concrete one-sub-filter operands,
`DynamicBloomFilter.intersection` hands back `other`'s sub-filter unchanged,
because line 641's `bloom = bloom or (bloom_filter and other_filter)`
evaluates Python truthiness of the filter objects (via `__len__`) instead of
calling `__or__`/`__and__`; the accumulator fold of OR-ed bitwise ANDs that
the claim (and the method's docstring) describes would instead produce the
all-zero bit vector here. -/
theorem dynamic_intersection_truthiness_bug :
    dynIntersection ierFn0 solve0 dbfA3 dbfB3 =
      .ok { base_capacity := 1, max_capacity := 5, individual_error_rate := half
            max_error_rate := half, filters := [bfV] } ∧
    bfV.bits = [false, true] ∧
    dynIntersectionSpecBits bfW.bits [bfV.bits] (List.replicate 2 false)
      = [false, false] ∧
    ([false, true] : List Bool) ≠ [false, false] := by
  refine ⟨?_, rfl, rfl, by decide⟩
  have hmis : ¬ (dbfA3.base_capacity ≠ dbfB3.base_capacity ∨
      dbfA3.individual_error_rate ≠ dbfB3.individual_error_rate) := by decide
  have c1 : ¬ (dbfA3.max_error_rate = 0 ∨ dbfA3.max_error_rate < 0) := by decide
  have c2 : ¬ (1 ≤ dbfA3.max_error_rate) := by decide
  have c3 : ¬ Int.ceil ((dbfA3.max_capacity : ℚ) / (dbfA3.base_capacity : ℚ)) = 0 := by
    show ¬ Int.ceil (((5 : ℤ) : ℚ) / ((1 : ℤ) : ℚ)) = 0
    norm_num
  have hmkd : mkDynamicBloomFilter ierFn0 dbfA3.base_capacity dbfA3.max_capacity
      dbfA3.max_error_rate = .ok
      { base_capacity := dbfA3.base_capacity
        max_capacity := dbfA3.max_capacity
        individual_error_rate :=
          ierFn0 dbfA3.base_capacity dbfA3.max_capacity dbfA3.max_error_rate
        max_error_rate := dbfA3.max_error_rate
        filters := [] } := by
    simp only [mkDynamicBloomFilter, if_neg c1, if_neg c2, if_neg c3]
  simp only [dynIntersection, if_neg hmis, hmkd]
  rfl

theorem mem_of_getLast?_eq {α : Type} {l : List α} {a : α}
    (h : l.getLast? = some a) : a ∈ l := by
  have hmem : a ∈ l.getLast? := by rw [h]; rfl
  rcases List.mem_getLast?_eq_getLast hmem with ⟨hne, heq⟩
  rw [heq]
  exact List.getLast_mem hne

theorem mkBloomFilter_ok (solve : Solver) (cap : ℤ) (er : ℚ)
    (hval : 0 < er ∧ er < 1) (hcap : 0 < cap) :
    mkBloomFilter solve cap er = .ok
      { error_rate := er
        num_slices := (solve cap.toNat er).1
        bits_per_slice := (solve cap.toNat er).2
        capacity := cap.toNat
        count := 0
        bits := List.replicate ((solve cap.toNat er).1 * (solve cap.toNat er).2)
          false } := by
  simp only [mkBloomFilter, if_pos hval, if_pos hcap]

theorem bfAdd_skip_check_ok (raw : RawHash) (f : BloomFilter) (key : Key)
    (h : f.count ≤ f.capacity) :
    bfAdd raw f key true =
      .ok ({ f with
              bits := (addLoop f.bits_per_slice 0 f.bits true (bfHashes raw f key)).1
              count := f.count + 1 }, false) := by
  have hno : ¬ f.count > f.capacity := by omega
  simp only [bfAdd, if_neg hno, if_pos rfl]
  simp

/-- C8: `ScalableBloomFilter.add` — if the key already tests as a member
(scanning sub-filters most-recently-created first) it returns `True` and
changes nothing; otherwise the first sub-filter is created with
`capacity = initial_capacity` and `error_rate = error_rate * (1 - 0.9)` when
none exists, a new sub-filter with `capacity = previous.capacity * scale`
and `error_rate = previous.error_rate * 0.9` is appended when the last one
has `count >= capacity`, and the key is inserted into the resulting last
sub-filter with skip-check insertion, returning `False`. -/
theorem scalable_add_spec (raw : RawHash) (solve : Solver)
    (s : ScalableBloomFilter) (key : Key)
    (hratio : s.ratioVal = 9 / 10)
    (hic : 0 < s.initial_capacity)
    (he0 : 0 < s.error_rate) (he1 : s.error_rate < 1)
    (hwf : ∀ f ∈ s.filters,
      0 < f.capacity ∧ 0 < f.error_rate ∧ f.error_rate < 1) :
    (sbfContains raw s key = true → sbfAdd raw solve s key = .ok (s, true)) ∧
    (sbfContains raw s key = false →
      (s.filters = [] →
        ∃ f f2, mkBloomFilter solve s.initial_capacity
            (s.error_rate * (1 - 9 / 10)) = .ok f ∧
          bfAdd raw f key true = .ok (f2, false) ∧
          sbfAdd raw solve s key = .ok ({ s with filters := [f2] }, false) ∧
          f.capacity = s.initial_capacity.toNat ∧
          f.error_rate = s.error_rate * (1 - 9 / 10) ∧
          f.count = 0 ∧ f2.count = 1) ∧
      (∀ last, s.filters.getLast? = some last →
        (last.count ≥ last.capacity → 0 < s.scale →
          ∃ f f2, mkBloomFilter solve ((last.capacity * s.scale : ℕ) : ℤ)
              (last.error_rate * (9 / 10)) = .ok f ∧
            bfAdd raw f key true = .ok (f2, false) ∧
            sbfAdd raw solve s key =
              .ok ({ s with filters := s.filters ++ [f2] }, false) ∧
            f.capacity = last.capacity * s.scale ∧
            f.error_rate = last.error_rate * (9 / 10) ∧
            f.count = 0 ∧ f2.count = 1) ∧
        (last.count < last.capacity →
          ∃ f2, bfAdd raw last key true = .ok (f2, false) ∧
            f2.count = last.count + 1 ∧
            sbfAdd raw solve s key =
              .ok ({ s with filters := s.filters.dropLast ++ [f2] }, false)))) := by
  constructor
  · intro h
    simp only [sbfAdd, h, if_pos]
  · intro h
    constructor
    · intro hnil
      have hget : s.filters.getLast? = none := by rw [hnil]; rfl
      have hval : 0 < s.error_rate * (1 - (9 : ℚ) / 10) ∧
          s.error_rate * (1 - (9 : ℚ) / 10) < 1 :=
        ⟨mul_pos he0 (by norm_num), by nlinarith⟩
      obtain ⟨f, hmkf, hfcap, hferr, hfcnt⟩ :
          ∃ f, mkBloomFilter solve s.initial_capacity
              (s.error_rate * (1 - 9 / 10)) = .ok f ∧
            f.capacity = s.initial_capacity.toNat ∧
            f.error_rate = s.error_rate * (1 - 9 / 10) ∧ f.count = 0 :=
        ⟨_, mkBloomFilter_ok solve s.initial_capacity _ hval hic, rfl, rfl, rfl⟩
      have hadd := bfAdd_skip_check_ok raw f key (by omega)
      refine ⟨f, _, hmkf, hadd, ?_, hfcap, hferr, hfcnt, by simp [hfcnt]⟩
      simp only [sbfAdd, h, Bool.false_eq_true, if_false, hget, hratio, hmkf, hadd]
    · intro last hlast
      have hmem : last ∈ s.filters := mem_of_getLast?_eq hlast
      obtain ⟨hlc, hle0, hle1⟩ := hwf last hmem
      constructor
      · intro hfull hscale
        have hcapz : (0 : ℤ) < ((last.capacity * s.scale : ℕ) : ℤ) := by
          exact_mod_cast Nat.mul_pos hlc hscale
        have hval : 0 < last.error_rate * ((9 : ℚ) / 10) ∧
            last.error_rate * ((9 : ℚ) / 10) < 1 :=
          ⟨mul_pos hle0 (by norm_num), by nlinarith⟩
        obtain ⟨f, hmkf, hfcap, hferr, hfcnt⟩ :
            ∃ f, mkBloomFilter solve ((last.capacity * s.scale : ℕ) : ℤ)
                (last.error_rate * (9 / 10)) = .ok f ∧
              f.capacity = ((last.capacity * s.scale : ℕ) : ℤ).toNat ∧
              f.error_rate = last.error_rate * (9 / 10) ∧ f.count = 0 :=
          ⟨_, mkBloomFilter_ok solve _ _ hval hcapz, rfl, rfl, rfl⟩
        have hadd := bfAdd_skip_check_ok raw f key (by omega)
        refine ⟨f, _, hmkf, hadd, ?_, ?_, hferr, hfcnt, by simp [hfcnt]⟩
        · simp only [sbfAdd, h, Bool.false_eq_true, if_false, hlast, hratio,
            if_pos (show last.count ≥ last.capacity from hfull), hmkf, hadd]
        · rw [hfcap]
          exact Int.toNat_natCast _
      · intro hroom
        have hadd := bfAdd_skip_check_ok raw last key (by omega)
        refine ⟨_, hadd, by simp, ?_⟩
        simp only [sbfAdd, h, Bool.false_eq_true, if_false, hlast,
          if_neg (show ¬ last.count ≥ last.capacity by omega), hadd]

/-- Witness for C8 on an empty concrete scalable filter. -/
theorem scalable_add_spec_witness :
    (sbfW.ratioVal = 9 / 10 ∧ 0 < sbfW.initial_capacity ∧
     0 < sbfW.error_rate ∧ sbfW.error_rate < 1) ∧
    ((sbfContains raw0 sbfW 0 = true → sbfAdd raw0 solve0 sbfW 0 = .ok (sbfW, true)) ∧
     (sbfContains raw0 sbfW 0 = false →
      (sbfW.filters = [] →
        ∃ f f2, mkBloomFilter solve0 sbfW.initial_capacity
            (sbfW.error_rate * (1 - 9 / 10)) = .ok f ∧
          bfAdd raw0 f 0 true = .ok (f2, false) ∧
          sbfAdd raw0 solve0 sbfW 0 = .ok ({ sbfW with filters := [f2] }, false) ∧
          f.capacity = sbfW.initial_capacity.toNat ∧
          f.error_rate = sbfW.error_rate * (1 - 9 / 10) ∧
          f.count = 0 ∧ f2.count = 1) ∧
      (∀ last, sbfW.filters.getLast? = some last →
        (last.count ≥ last.capacity → 0 < sbfW.scale →
          ∃ f f2, mkBloomFilter solve0 ((last.capacity * sbfW.scale : ℕ) : ℤ)
              (last.error_rate * (9 / 10)) = .ok f ∧
            bfAdd raw0 f 0 true = .ok (f2, false) ∧
            sbfAdd raw0 solve0 sbfW 0 =
              .ok ({ sbfW with filters := sbfW.filters ++ [f2] }, false) ∧
            f.capacity = last.capacity * sbfW.scale ∧
            f.error_rate = last.error_rate * (9 / 10) ∧
            f.count = 0 ∧ f2.count = 1) ∧
        (last.count < last.capacity →
          ∃ f2, bfAdd raw0 last 0 true = .ok (f2, false) ∧
            f2.count = last.count + 1 ∧
            sbfAdd raw0 solve0 sbfW 0 =
              .ok ({ sbfW with filters := sbfW.filters.dropLast ++ [f2] }, false))))) :=
  ⟨⟨rfl, by decide, by decide, by decide⟩,
   scalable_add_spec raw0 solve0 sbfW 0 rfl (by decide) (by decide) (by decide)
     (by simp [sbfW])⟩

theorem bfUnion_ok_uniform (solve : Solver) (mf g : BloomFilter)
    (hcap : mf.capacity = g.capacity) (her : mf.error_rate = g.error_rate)
    (hc : 0 < mf.capacity) (he0 : 0 < mf.error_rate) (he1 : mf.error_rate < 1) :
    ∃ u, bfUnion solve mf g = .ok u ∧
      u.capacity = mf.capacity ∧ u.error_rate = mf.error_rate := by
  have hmis : ¬ (mf.capacity ≠ g.capacity ∨ mf.error_rate ≠ g.error_rate) := by
    push_neg
    exact ⟨hcap, her⟩
  simp only [bfUnion, if_neg hmis, bfCopy_ok solve mf hc he0 he1]
  exact ⟨_, rfl, rfl, rfl⟩

theorem dynUnionScan_ok (solve : Solver) (base : ℤ) (c0 : ℕ) (e0 : ℚ)
    (hc : 0 < c0) (he0 : 0 < e0) (he1 : e0 < 1) (mf : BloomFilter)
    (hmf : mf.capacity = c0 ∧ mf.error_rate = e0) :
    ∀ gs : List BloomFilter,
      (∀ g ∈ gs, g.capacity = c0 ∧ g.error_rate = e0) →
      ∃ r, dynUnionScan solve base mf gs = .ok r ∧
        ∀ gs2, r = some gs2 →
          ∀ g ∈ gs2, g.capacity = c0 ∧ g.error_rate = e0 := by
  intro gs
  induction gs with
  | nil => exact fun _ => ⟨none, rfl, by simp⟩
  | cons g gs ih =>
      intro hg
      obtain ⟨r, hr, hrwf⟩ := ih fun x hx => hg x (List.mem_cons_of_mem _ hx)
      have hgw := hg g (List.mem_cons_self _ _)
      obtain ⟨u, hu, hucap, huerr⟩ := bfUnion_ok_uniform solve mf g
        (by rw [hmf.1, hgw.1]) (by rw [hmf.2, hgw.2])
        (by rw [hmf.1]; exact hc) (by rw [hmf.2]; exact he0) (by rw [hmf.2]; exact he1)
      cases r with
      | some gs2 =>
          refine ⟨some (g :: gs2), by simp only [dynUnionScan, hr], ?_⟩
          intro gs3 hgs3 x hx
          cases hgs3
          rcases List.mem_cons.mp hx with rfl | hx2
          · exact hgw
          · exact hrwf gs2 rfl x hx2
      | none =>
          by_cases hcnt : (u.count : ℤ) < base
          · refine ⟨some (u :: gs),
              by simp only [dynUnionScan, hr, hu, if_pos hcnt], ?_⟩
            intro gs3 hgs3 x hx
            cases hgs3
            rcases List.mem_cons.mp hx with rfl | hx2
            · exact ⟨hucap.trans hmf.1, huerr.trans hmf.2⟩
            · exact hg x (List.mem_cons_of_mem _ hx2)
          · exact ⟨none, by simp only [dynUnionScan, hr, hu, if_neg hcnt], by simp⟩

theorem dynUnionOuter_ok (solve : Solver) (base : ℤ) (c0 : ℕ) (e0 : ℚ)
    (hc : 0 < c0) (he0 : 0 < e0) (he1 : e0 < 1) :
    ∀ (mfs others : List BloomFilter),
      (∀ f ∈ mfs, f.capacity = c0 ∧ f.error_rate = e0) →
      (∀ g ∈ others, g.capacity = c0 ∧ g.error_rate = e0) →
      ∃ res, dynUnionOuter solve base mfs others = .ok res := by
  intro mfs
  induction mfs with
  | nil => exact fun others _ _ => ⟨others, rfl⟩
  | cons mf mfs ih =>
      intro others hmfs hothers
      obtain ⟨r, hr, hrwf⟩ := dynUnionScan_ok solve base c0 e0 hc he0 he1 mf
        (hmfs mf (List.mem_cons_self _ _)) others hothers
      cases r with
      | some o2 =>
          obtain ⟨res, hres⟩ := ih o2
            (fun x hx => hmfs x (List.mem_cons_of_mem _ hx)) (hrwf o2 rfl)
          refine ⟨res, ?_⟩
          simp only [dynUnionOuter, hr]
          exact hres
      | none =>
          obtain ⟨res, hres⟩ := ih (others ++ [mf])
            (fun x hx => hmfs x (List.mem_cons_of_mem _ hx))
            (by
              intro x hx
              rcases List.mem_append.mp hx with hx2 | hx2
              · exact hothers x hx2
              · rw [List.mem_singleton.mp hx2]
                exact hmfs mf (List.mem_cons_self _ _))
          refine ⟨res, ?_⟩
          simp only [dynUnionOuter, hr]
          exact hres

theorem copyAll_ok (solve : Solver) (c0 : ℕ) (e0 : ℚ)
    (hc : 0 < c0) (he0 : 0 < e0) (he1 : e0 < 1) :
    ∀ l : List BloomFilter,
      (∀ g ∈ l, g.capacity = c0 ∧ g.error_rate = e0) →
      ∃ l2, copyAll solve l = .ok l2 ∧
        ∀ g ∈ l2, g.capacity = c0 ∧ g.error_rate = e0 := by
  intro l
  induction l with
  | nil => exact fun _ => ⟨[], rfl, by simp⟩
  | cons f fs ih =>
      intro hl
      have hfw := hl f (List.mem_cons_self _ _)
      have hcopy := bfCopy_ok solve f
        (by rw [hfw.1]; exact hc) (by rw [hfw.2]; exact he0) (by rw [hfw.2]; exact he1)
      obtain ⟨l2, hl2, hl2wf⟩ := ih fun x hx => hl x (List.mem_cons_of_mem _ hx)
      refine ⟨{ error_rate := f.error_rate
                num_slices := (solve f.capacity f.error_rate).1
                bits_per_slice := (solve f.capacity f.error_rate).2
                capacity := f.capacity
                count := f.count
                bits := f.bits } :: l2, ?_, ?_⟩
      · simp only [copyAll, hcopy, hl2]
      · intro x hx
        rcases List.mem_cons.mp hx with rfl | hx2
        · exact hfw
        · exact hl2wf x hx2

theorem dynIntersectionOuter_ok (solve : Solver) (base : ℤ) (ier : ℚ)
    (others : List BloomFilter) (hbase : 0 < base)
    (hier : 0 < ier ∧ ier < 1) :
    ∀ bfs : List BloomFilter,
      ∃ res, dynIntersectionOuter solve base ier others bfs = .ok res := by
  intro bfs
  induction bfs with
  | nil => exact ⟨[], rfl⟩
  | cons bf bfs ih =>
      obtain ⟨res, hres⟩ := ih
      have hmk := mkBloomFilter_ok solve base ier hier hbase
      refine ⟨dynIntersectionInner bf others
        { error_rate := ier
          num_slices := (solve base.toNat ier).1
          bits_per_slice := (solve base.toNat ier).2
          capacity := base.toNat
          count := 0
          bits := List.replicate ((solve base.toNat ier).1 * (solve base.toNat ier).2)
            false } :: res, ?_⟩
      simp only [dynIntersectionOuter, hmk, hres]

/-- C10: `DynamicBloomFilter.union` and `DynamicBloomFilter.intersection`
compare only `base_capacity` and `individual_error_rate`: operands whose
`max_capacity` differ are still merged without error, and the result's
`max_capacity` and `max_error_rate` come from `self`, not from `other`
(the result is rebuilt by the constructor from `self`'s parameters).
The hypotheses on `c0`/`e0` state that all sub-filters of both operands
share one positive capacity and one error rate in `(0,1)`, which is how the
orchestrators build them; the hypotheses `0 < max_error_rate < 1`,
`0 < base_capacity` and `ceil(max_capacity / base_capacity) ≠ 0` hold of
every constructor-built `DynamicBloomFilter` (the constructor raises
otherwise) and let the rebuilding constructor call inside the merge succeed. -/
theorem dynamic_merge_compat (ierFn : IerFn) (solve : Solver)
    (a b : DynamicBloomFilter) (c0 : ℕ) (e0 : ℚ)
    (hb : a.base_capacity = b.base_capacity)
    (hie : a.individual_error_rate = b.individual_error_rate)
    (hmer : 0 < a.max_error_rate) (hmer1 : a.max_error_rate < 1)
    (hceil : Int.ceil ((a.max_capacity : ℚ) / (a.base_capacity : ℚ)) ≠ 0)
    (hbase : 0 < a.base_capacity)
    (hier0 : 0 < a.individual_error_rate) (hier1 : a.individual_error_rate < 1)
    (hc0 : 0 < c0) (he0 : 0 < e0) (he1 : e0 < 1)
    (hwfa : ∀ f ∈ a.filters, f.capacity = c0 ∧ f.error_rate = e0)
    (hwfb : ∀ f ∈ b.filters, f.capacity = c0 ∧ f.error_rate = e0) :
    (∃ u, dynUnion ierFn solve a b = .ok u ∧
       u.base_capacity = a.base_capacity ∧ u.max_capacity = a.max_capacity ∧
       u.max_error_rate = a.max_error_rate ∧
       u.individual_error_rate =
         ierFn a.base_capacity a.max_capacity a.max_error_rate) ∧
    (∃ v, dynIntersection ierFn solve a b = .ok v ∧
       v.base_capacity = a.base_capacity ∧ v.max_capacity = a.max_capacity ∧
       v.max_error_rate = a.max_error_rate ∧
       v.individual_error_rate =
         ierFn a.base_capacity a.max_capacity a.max_error_rate) ∧
    (∀ c d : DynamicBloomFilter,
       c.base_capacity ≠ d.base_capacity ∨
         c.individual_error_rate ≠ d.individual_error_rate →
       dynUnion ierFn solve c d = .error () ∧
         dynIntersection ierFn solve c d = .error ()) := by
  have hmis : ¬ (a.base_capacity ≠ b.base_capacity ∨
      a.individual_error_rate ≠ b.individual_error_rate) := by
    push_neg
    exact ⟨hb, hie⟩
  have hcond : ¬ (a.max_error_rate = 0 ∨ a.max_error_rate < 0) := by
    push_neg
    exact ⟨ne_of_gt hmer, le_of_lt hmer⟩
  have hmkd : mkDynamicBloomFilter ierFn a.base_capacity a.max_capacity
      a.max_error_rate = .ok
      { base_capacity := a.base_capacity
        max_capacity := a.max_capacity
        individual_error_rate :=
          ierFn a.base_capacity a.max_capacity a.max_error_rate
        max_error_rate := a.max_error_rate
        filters := [] } := by
    simp only [mkDynamicBloomFilter, if_neg hcond, if_neg (not_le.mpr hmer1),
      if_neg hceil]
  refine ⟨?_, ?_, ?_⟩
  · obtain ⟨others, hcopies, hcwf⟩ :=
      copyAll_ok solve c0 e0 hc0 he0 he1 b.filters hwfb
    obtain ⟨merged, hmerged⟩ := dynUnionOuter_ok solve a.base_capacity c0 e0
      hc0 he0 he1 a.filters others hwfa hcwf
    refine ⟨{ base_capacity := a.base_capacity
              max_capacity := a.max_capacity
              individual_error_rate :=
                ierFn a.base_capacity a.max_capacity a.max_error_rate
              max_error_rate := a.max_error_rate
              filters := merged }, ?_, rfl, rfl, rfl, rfl⟩
    simp only [dynUnion, if_neg hmis, hmkd, hcopies, hmerged]
  · obtain ⟨fs, hfs⟩ := dynIntersectionOuter_ok solve a.base_capacity
      a.individual_error_rate b.filters hbase ⟨hier0, hier1⟩ a.filters
    refine ⟨{ base_capacity := a.base_capacity
              max_capacity := a.max_capacity
              individual_error_rate :=
                ierFn a.base_capacity a.max_capacity a.max_error_rate
              max_error_rate := a.max_error_rate
              filters := fs }, ?_, rfl, rfl, rfl, rfl⟩
    simp only [dynIntersection, if_neg hmis, hmkd, hfs]
  · intro c d hcd
    exact ⟨by simp only [dynUnion, if_pos hcd],
           by simp only [dynIntersection, if_pos hcd]⟩

/-- Witness for C10 on two concrete dynamic filters that differ in
`max_capacity` (5 vs 7) yet merge without error. -/
theorem dynamic_merge_compat_witness :
    (dbfA10.max_capacity ≠ dbfB10.max_capacity ∧
     dbfA10.base_capacity = dbfB10.base_capacity ∧
     dbfA10.individual_error_rate = dbfB10.individual_error_rate ∧
     0 < dbfA10.max_error_rate ∧ dbfA10.max_error_rate < 1 ∧
     Int.ceil ((dbfA10.max_capacity : ℚ) / (dbfA10.base_capacity : ℚ)) ≠ 0 ∧
     0 < dbfA10.base_capacity ∧
     0 < dbfA10.individual_error_rate ∧ dbfA10.individual_error_rate < 1) ∧
    ((∃ u, dynUnion ierFn0 solve0 dbfA10 dbfB10 = .ok u ∧
       u.base_capacity = dbfA10.base_capacity ∧
       u.max_capacity = dbfA10.max_capacity ∧
       u.max_error_rate = dbfA10.max_error_rate ∧
       u.individual_error_rate =
         ierFn0 dbfA10.base_capacity dbfA10.max_capacity dbfA10.max_error_rate) ∧
     (∃ v, dynIntersection ierFn0 solve0 dbfA10 dbfB10 = .ok v ∧
       v.base_capacity = dbfA10.base_capacity ∧
       v.max_capacity = dbfA10.max_capacity ∧
       v.max_error_rate = dbfA10.max_error_rate ∧
       v.individual_error_rate =
         ierFn0 dbfA10.base_capacity dbfA10.max_capacity dbfA10.max_error_rate) ∧
     (∀ c d : DynamicBloomFilter,
       c.base_capacity ≠ d.base_capacity ∨
         c.individual_error_rate ≠ d.individual_error_rate →
       dynUnion ierFn0 solve0 c d = .error () ∧
         dynIntersection ierFn0 solve0 c d = .error ())) :=
  ⟨⟨by decide, by decide, by decide, by decide, by decide,
    by show Int.ceil (((5 : ℤ) : ℚ) / ((1 : ℤ) : ℚ)) ≠ 0; norm_num,
    by decide, by decide, by decide⟩,
   dynamic_merge_compat ierFn0 solve0 dbfA10 dbfB10 1 half (by decide) (by decide)
     (by decide) (by decide)
     (by show Int.ceil (((5 : ℤ) : ℚ) / ((1 : ℤ) : ℚ)) ≠ 0; norm_num)
     (by decide) (by decide) (by decide)
     (by decide) (by decide) (by decide) (by simp [dbfA10]) (by simp [dbfB10])⟩

end DynamicPybloom
